import Mathlib

/-!
# `my::limited_priority_queue` (base/limited_priority_queue.hpp)

A shallow embedding of the bounded priority queue and a verification of its
contract.  The `vector<T>` member is a `List T` in `begin()..end()` order, the
`size_t` member is a `Nat` (the class only compares sizes, it never does
arithmetic on them), and the comparator object is a Boolean function stored in
the state, as `m_compare` is.  Operations whose C++ behaviour is undefined on
some states (`back()` or `pop_back()` of an empty vector) return `none` there.
-/

set_option autoImplicit false

namespace my

/-! ## Heap primitives of the standard library -/

/-- Exchange of the values at positions `i` and `j` (`std::iter_swap`); a
position outside the sequence leaves it as it is. -/
def iter_swap {T : Type} (q : List T) (i j : Nat) : List T :=
  match q[i]?, q[j]? with
  | some a, some b => (q.set i b).set j a
  | _, _ => q

/-- Sift the value at position `i` up towards the root while its parent at
`(i - 1) / 2` compares less than it.  The first argument bounds the number of
steps; `i` steps always suffice. -/
def siftUp {T : Type} (lt : T → T → Bool) : Nat → List T → Nat → List T
  | 0, q, _ => q
  | fuel + 1, q, i =>
    if i = 0 then q
    else
      match q[(i - 1) / 2]?, q[i]? with
      | some p, some c =>
        if lt p c then siftUp lt fuel (iter_swap q ((i - 1) / 2) i) ((i - 1) / 2) else q
      | _, _ => q

/-- Modelled from the spec: `std::push_heap(first, last, comp)`, which comes from the
standard library through `std/algorithm.hpp` and is not part of the source
file.  The spec describes it as the standard heap insert: the last value is
sifted up into heap position. -/
def push_heap {T : Type} (lt : T → T → Bool) (q : List T) : List T :=
  siftUp lt q.length q (q.length - 1)

/-- Position of the child of `i` to compare with during a sift down inside the
first `n` positions: the right child when it exists and the left child
compares less than it, the left child otherwise. -/
def largerChild {T : Type} (lt : T → T → Bool) (q : List T) (n i : Nat) : Nat :=
  if 2 * i + 2 < n then
    match q[2 * i + 1]?, q[2 * i + 2]? with
    | some l, some r => if lt l r then 2 * i + 2 else 2 * i + 1
    | _, _ => 2 * i + 1
  else 2 * i + 1

/-- Sift the value at position `i` down inside the first `n` positions while
it compares less than its larger child.  The first argument bounds the number
of steps; `n - i` steps always suffice. -/
def siftDown {T : Type} (lt : T → T → Bool) : Nat → List T → Nat → Nat → List T
  | 0, q, _, _ => q
  | fuel + 1, q, n, i =>
    if 2 * i + 1 < n then
      match q[i]?, q[largerChild lt q n i]? with
      | some a, some b =>
        if lt a b then
          siftDown lt fuel (iter_swap q i (largerChild lt q n i)) n (largerChild lt q n i)
        else q
      | _, _ => q
    else q

/-- Modelled from the spec: `std::pop_heap(first, last, comp)`, which comes from the
standard library through `std/algorithm.hpp` and is not part of the source
file.  The spec describes it as the standard heap remove-max: the root is
swapped with the last value and the new root is sifted down inside the
sequence shortened by one; the old root stays in the last position. -/
def pop_heap {T : Type} (lt : T → T → Bool) (q : List T) : List T :=
  siftDown lt (q.length - 1) (iter_swap q 0 (q.length - 1)) (q.length - 1) 0

/-! ## The queue -/

/-- The data members of `limited_priority_queue<T, CompareT>`. -/
structure limited_priority_queue (T : Type) where
  /-- The member `vector<T> m_queue`. -/
  m_queue : List T
  /-- The member `size_t m_maxSize`. -/
  m_maxSize : Nat
  /-- The member `CompareT m_compare`. -/
  m_compare : T → T → Bool

namespace limited_priority_queue

variable {T : Type}

/-- The constructor `limited_priority_queue(maxSize, compare)`. -/
def create (maxSize : Nat) (compare : T → T → Bool) : limited_priority_queue T :=
  { m_queue := [], m_maxSize := if maxSize = 0 then 1 else maxSize, m_compare := compare }

/-- The member function `max_size()`. -/
def max_size (s : limited_priority_queue T) : Nat := s.m_maxSize

/-- The member function `empty()`. -/
def empty (s : limited_priority_queue T) : Bool := s.m_queue.isEmpty

/-- The member function `size()`. -/
def size (s : limited_priority_queue T) : Nat := s.m_queue.length

/-- The member function `top()`: it reads `m_queue.back()`, which is undefined on an
empty vector (`none`). -/
def top (s : limited_priority_queue T) : Option T := s.m_queue.getLast?

/-- The stored sequence as exposed by `begin()` and `end()`. -/
def elements (s : limited_priority_queue T) : List T := s.m_queue

/-- The member function `push(t)`.  The second branch reads `m_queue.back()`, which is
undefined on an empty vector (`none`). -/
def push (s : limited_priority_queue T) (t : T) : Option (limited_priority_queue T) :=
  if s.m_queue.length < s.m_maxSize then
    some { s with m_queue := push_heap s.m_compare (s.m_queue ++ [t]) }
  else
    match s.m_queue.getLast? with
    | none => none
    | some b =>
      if s.m_compare t b then
        some { s with
          m_queue :=
            push_heap s.m_compare
              ((pop_heap s.m_compare s.m_queue).set (s.m_queue.length - 1) t) }
      else some s

/-- The member function `pop()`: `pop_heap` followed by `pop_back()`, undefined on an
empty vector (`none`). -/
def pop (s : limited_priority_queue T) : Option (limited_priority_queue T) :=
  if s.m_queue.isEmpty then none
  else some { s with m_queue := (pop_heap s.m_compare s.m_queue).dropLast }

/-- The loop `while (size() > m_maxSize) pop();` of `set_max_size`.  The first
argument bounds the number of iterations (`none` when it is used up with the
loop condition still true, or when `pop()` is undefined). -/
def popLoop : Nat → limited_priority_queue T → Option (limited_priority_queue T)
  | 0, s => if s.size > s.m_maxSize then none else some s
  | fuel + 1, s => if s.size > s.m_maxSize then (pop s).bind (popLoop fuel) else some s

/-- The member function `set_max_size(maxSize)`.  The loop runs at most `size()` times. -/
def set_max_size (s : limited_priority_queue T) (maxSize : Nat) :
    Option (limited_priority_queue T) :=
  popLoop s.size { s with m_maxSize := if maxSize = 0 then 1 else maxSize }

/-- The member function `clear()`. -/
def clear (s : limited_priority_queue T) : limited_priority_queue T :=
  { s with m_queue := [] }

/-- The member function `swap(queue)`, and the free function `my::swap(q1, q2)` that calls
it: the pair of states after the call, first `*this`, then the argument. -/
def swap (s queue : limited_priority_queue T) :
    limited_priority_queue T × limited_priority_queue T :=
  ({ m_queue := queue.m_queue, m_maxSize := queue.m_maxSize, m_compare := queue.m_compare },
   { m_queue := s.m_queue, m_maxSize := s.m_maxSize, m_compare := s.m_compare })

/-- Push the values of `ts` one by one, first to last. -/
def pushAll (s : limited_priority_queue T) (ts : List T) : Option (limited_priority_queue T) :=
  ts.foldlM push s

/-- Drain by repeatedly reading `top()` and then calling `pop()` until `empty()`;
the result is the sequence of values read.  The first argument bounds the
number of rounds. -/
def drain : Nat → limited_priority_queue T → Option (List T)
  | 0, s => if s.empty then some [] else none
  | fuel + 1, s =>
    if s.empty then some []
    else
      match top s, pop s with
      | some t, some s1 => (drain fuel s1).map (fun r => t :: r)
      | _, _ => none

/-- Drain the whole queue: `size()` rounds empty it. -/
def drainAll (s : limited_priority_queue T) : Option (List T) := drain s.size s

end limited_priority_queue

/-- The default comparator `less<T>` on natural numbers. -/
def less (a b : Nat) : Bool := decide (a < b)

/-! ## Specification vocabulary -/

/-- The comparator contract of the standard library: a strict weak ordering is
irreflexive and transitive, and the equivalence "neither compares less than
the other" is transitive. -/
structure StrictWeakOrder {T : Type} (lt : T → T → Bool) : Prop where
  irrefl : ∀ a, lt a a = false
  trans : ∀ a b c, lt a b = true → lt b c = true → lt a c = true
  equiv_trans : ∀ a b c, lt a b = false → lt b a = false → lt b c = false → lt c b = false →
    lt a c = false ∧ lt c a = false

/-- Binary max-heap property of the first `n` positions of `q`: no value at a
position `i ≥ 1` is compared greater than by its parent at `(i - 1) / 2`. -/
def HeapOn {T : Type} (lt : T → T → Bool) (q : List T) (n : Nat) : Prop :=
  ∀ i, 0 < i → i < n → ∀ a b, q[(i - 1) / 2]? = some a → q[i]? = some b → lt a b = false

/-- Binary max-heap property of the whole sequence. -/
def IsHeap {T : Type} (lt : T → T → Bool) (q : List T) : Prop := HeapOn lt q q.length

/-- Heap property of the first `n` positions while the value at position `i` is
being sifted up: every position other than `i` respects its parent, and the
children of `i` respect the parent of `i`. -/
def HeapUpExcept {T : Type} (lt : T → T → Bool) (q : List T) (n i : Nat) : Prop :=
  (∀ k, 0 < k → k < n → k ≠ i →
    ∀ a b, q[(k - 1) / 2]? = some a → q[k]? = some b → lt a b = false) ∧
  (∀ k, 0 < k → k < n → 0 < i → (k - 1) / 2 = i →
    ∀ a b, q[(i - 1) / 2]? = some a → q[k]? = some b → lt a b = false)

/-- Heap property of the first `n` positions while the value at position `i` is
being sifted down: every position whose parent is not `i` respects its parent,
and the children of `i` respect the parent of `i`. -/
def HeapDownExcept {T : Type} (lt : T → T → Bool) (q : List T) (n i : Nat) : Prop :=
  (∀ k, 0 < k → k < n → (k - 1) / 2 ≠ i →
    ∀ a b, q[(k - 1) / 2]? = some a → q[k]? = some b → lt a b = false) ∧
  (∀ k, 0 < k → k < n → 0 < i → (k - 1) / 2 = i →
    ∀ a b, q[(i - 1) / 2]? = some a → q[k]? = some b → lt a b = false)

/-- The value `w` is a worst element of `q`: it occurs in `q` and compares less
than no element of `q`. -/
def IsWorst {T : Type} (lt : T → T → Bool) (q : List T) (w : T) : Prop :=
  w ∈ q ∧ ∀ x ∈ q, lt w x = false

/-- The list `r` holds `k` best elements of `all`: `r` has length `k`, and `all`
is `r` together with a remainder none of whose values compares less than a
value of `r`. -/
def IsBest {T : Type} (lt : T → T → Bool) (k : Nat) (all r : List T) : Prop :=
  r.length = k ∧ ∃ d : List T, List.Perm all (r ++ d) ∧ ∀ x ∈ r, ∀ y ∈ d, lt y x = false

namespace limited_priority_queue

variable {T : Type}

/-- States reachable from a freshly constructed queue by `push`, `pop` (where it
is defined, that is on a non-empty queue), `set_max_size`, `clear` and `swap`
with another reachable queue. -/
inductive Reachable : limited_priority_queue T → Prop
  | create (maxSize : Nat) (compare : T → T → Bool) : Reachable (create maxSize compare)
  | push {s s1 : limited_priority_queue T} (t : T) :
      Reachable s → push s t = some s1 → Reachable s1
  | pop {s s1 : limited_priority_queue T} : Reachable s → pop s = some s1 → Reachable s1
  | set_max_size {s s1 : limited_priority_queue T} (maxSize : Nat) :
      Reachable s → set_max_size s maxSize = some s1 → Reachable s1
  | clear {s : limited_priority_queue T} : Reachable s → Reachable (clear s)
  | swap_fst {s queue : limited_priority_queue T} :
      Reachable s → Reachable queue → Reachable (swap s queue).1
  | swap_snd {s queue : limited_priority_queue T} :
      Reachable s → Reachable queue → Reachable (swap s queue).2

/-- The capacity bound: the capacity is at least one and the size does not exceed it. -/
def CapacityInv (s : limited_priority_queue T) : Prop :=
  1 ≤ s.max_size ∧ s.size ≤ s.max_size

/-- The queue of capacity 3 with the default comparator after the pushes 5, 4, 3. -/
def full543 : limited_priority_queue Nat := ⟨[5, 4, 3], 3, less⟩

/-- States reachable from a freshly constructed queue by `push`, `pop` (where it
is defined), `set_max_size` and `clear`, together with the values pushed so
far, the latest first. -/
inductive ReachableAfter : List T → limited_priority_queue T → Prop
  | create (maxSize : Nat) (compare : T → T → Bool) : ReachableAfter [] (create maxSize compare)
  | push {pushed : List T} {s s1 : limited_priority_queue T} (t : T) :
      ReachableAfter pushed s → push s t = some s1 → ReachableAfter (t :: pushed) s1
  | pop {pushed : List T} {s s1 : limited_priority_queue T} :
      ReachableAfter pushed s → pop s = some s1 → ReachableAfter pushed s1
  | set_max_size {pushed : List T} {s s1 : limited_priority_queue T} (maxSize : Nat) :
      ReachableAfter pushed s → set_max_size s maxSize = some s1 → ReachableAfter pushed s1
  | clear {pushed : List T} {s : limited_priority_queue T} :
      ReachableAfter pushed s → ReachableAfter pushed (clear s)

/-- A run of `n` successive calls of `pop()`, undefined (`none`) as soon as one of
them is. -/
def popN : Nat → limited_priority_queue T → Option (limited_priority_queue T)
  | 0, s => some s
  | n + 1, s => (pop s).bind (popN n)

end limited_priority_queue

/-! ## The comparator contract -/

section Order

variable {T : Type} {lt : T → T → Bool}

theorem StrictWeakOrder.asymm (h : StrictWeakOrder lt) {a b : T} (hab : lt a b = true) :
    lt b a = false := by
  cases hba : lt b a with
  | false => rfl
  | true =>
    have haa := h.trans a b a hab hba
    rw [h.irrefl] at haa
    exact absurd haa (by simp)

/-- A strict weak ordering is negatively transitive. -/
theorem StrictWeakOrder.neg_trans (h : StrictWeakOrder lt) {a b c : T}
    (hab : lt a b = false) (hbc : lt b c = false) : lt a c = false := by
  cases hac : lt a c with
  | false => rfl
  | true =>
    cases hba : lt b a with
    | true =>
      have hbc1 := h.trans b a c hba hac
      rw [hbc] at hbc1
      exact absurd hbc1 (by simp)
    | false =>
      cases hcb : lt c b with
      | true =>
        have hab1 := h.trans a c b hac hcb
        rw [hab] at hab1
        exact absurd hab1 (by simp)
      | false =>
        have hac1 := (h.equiv_trans a b c hab hba hbc hcb).1
        rw [hac] at hac1
        exact absurd hac1 (by simp)

theorem strictWeakOrder_less : StrictWeakOrder less := by
  refine ⟨?_, ?_, ?_⟩
  · intro a
    simp [less]
  · intro a b c hab hbc
    simp only [less, decide_eq_true_eq] at *
    omega
  · intro a b c hab hba hbc hcb
    simp only [less, decide_eq_false_iff_not] at *
    constructor <;> omega

end Order

/-! ## Exchanging two positions -/

section Swap

variable {T : Type}

theorem length_iter_swap (q : List T) (i j : Nat) : (iter_swap q i j).length = q.length := by
  unfold iter_swap
  split <;> simp

theorem getElem?_iter_swap {q : List T} {i j : Nat} {a b : T}
    (hi : q[i]? = some a) (hj : q[j]? = some b) (k : Nat) :
    (iter_swap q i j)[k]? = if k = j then some a else if k = i then some b else q[k]? := by
  have hil : i < q.length := (List.getElem?_eq_some.mp hi).1
  have hjl : j < q.length := (List.getElem?_eq_some.mp hj).1
  unfold iter_swap
  rw [hi, hj]
  simp only [List.getElem?_set, List.length_set]
  by_cases hkj : k = j
  · simp [hkj, hjl]
  · by_cases hki : k = i
    · subst hki
      simp [hil, Ne.symm hkj, hkj]
    · simp [hkj, hki, Ne.symm hkj, Ne.symm hki]

theorem cons_set_perm {b x : T} : ∀ {xs : List T} {j : Nat}, xs[j]? = some b →
    List.Perm (b :: xs.set j x) (x :: xs)
  | [], j, h => by simp at h
  | y :: ys, 0, h => by
    simp only [List.getElem?_cons_zero, Option.some.injEq] at h
    subst h
    exact List.Perm.swap _ _ _
  | y :: ys, j + 1, h => by
    simp only [List.getElem?_cons_succ] at h
    simp only [List.set_cons_succ]
    exact (List.Perm.swap _ _ _).trans (((cons_set_perm h).cons y).trans (List.Perm.swap _ _ _))

theorem set_set_perm {a b : T} : ∀ {q : List T} {i j : Nat}, q[i]? = some a → q[j]? = some b →
    List.Perm ((q.set i b).set j a) q
  | [], i, j, hi, _ => by simp at hi
  | x :: xs, 0, 0, hi, hj => by
    simp only [List.getElem?_cons_zero, Option.some.injEq] at hi hj
    simp [hi]
  | x :: xs, 0, j + 1, hi, hj => by
    simp only [List.getElem?_cons_zero, Option.some.injEq] at hi
    simp only [List.getElem?_cons_succ] at hj
    subst hi
    simpa using (cons_set_perm (x := x) hj)
  | x :: xs, i + 1, 0, hi, hj => by
    simp only [List.getElem?_cons_zero, Option.some.injEq] at hj
    simp only [List.getElem?_cons_succ] at hi
    subst hj
    simpa using (cons_set_perm (x := x) hi)
  | x :: xs, i + 1, j + 1, hi, hj => by
    simp only [List.getElem?_cons_succ] at hi hj
    simpa using (set_set_perm hi hj).cons x

theorem iter_swap_perm (q : List T) (i j : Nat) : List.Perm (iter_swap q i j) q := by
  unfold iter_swap
  split
  · next a b hi hj => exact set_set_perm hi hj
  · exact List.Perm.refl _

end Swap

/-! ## Sifting up -/

section SiftUp

variable {T : Type} {lt : T → T → Bool}

theorem length_siftUp (fuel : Nat) (q : List T) (i : Nat) :
    (siftUp lt fuel q i).length = q.length := by
  induction fuel generalizing q i with
  | zero => rfl
  | succ f ih =>
    simp only [siftUp]
    split
    · rfl
    · split
      · split
        · rw [ih, length_iter_swap]
        · rfl
      · rfl

theorem siftUp_perm (fuel : Nat) (q : List T) (i : Nat) :
    List.Perm (siftUp lt fuel q i) q := by
  induction fuel generalizing q i with
  | zero => exact List.Perm.refl _
  | succ f ih =>
    simp only [siftUp]
    split
    · exact List.Perm.refl _
    · split
      · split
        · exact (ih _ _).trans (iter_swap_perm _ _ _)
        · exact List.Perm.refl _
      · exact List.Perm.refl _

theorem heapOn_of_heapUpExcept_zero {q : List T} {n : Nat} (h : HeapUpExcept lt q n 0) :
    HeapOn lt q n := by
  intro k hk0 hkn a b ha hb
  exact h.1 k hk0 hkn (by omega) a b ha hb

theorem heapUpExcept_step (hlt : StrictWeakOrder lt) {q : List T} {n i : Nat} {p c : T}
    (hi0 : 0 < i) (hin : i < n) (hp : q[(i - 1) / 2]? = some p) (hc : q[i]? = some c)
    (hpc : lt p c = true) (h : HeapUpExcept lt q n i) :
    HeapUpExcept lt (iter_swap q ((i - 1) / 2) i) n ((i - 1) / 2) := by
  obtain ⟨h1, h2⟩ := h
  refine ⟨?_, ?_⟩
  · intro k hk0 hkn hkP a b ha hb
    rw [getElem?_iter_swap hp hc] at ha hb
    by_cases hki : k = i
    · subst hki
      have hne : (k - 1) / 2 ≠ k := by omega
      simp only [if_true, if_neg hne, Option.some.injEq] at ha hb
      subst ha hb
      exact hlt.asymm hpc
    · simp only [if_neg hki, if_neg hkP] at hb
      by_cases hpi : (k - 1) / 2 = i
      · simp only [if_pos hpi, Option.some.injEq] at ha
        subst ha
        exact h2 k hk0 hkn hi0 hpi _ _ hp hb
      · simp only [if_neg hpi] at ha
        by_cases hpP : (k - 1) / 2 = (i - 1) / 2
        · simp only [if_pos hpP, Option.some.injEq] at ha
          subst ha
          have hpb : lt p b = false := h1 k hk0 hkn hki p b (hpP ▸ hp) hb
          cases hcb : lt c b with
          | false => rfl
          | true =>
            have hpb1 := hlt.trans p c b hpc hcb
            rw [hpb] at hpb1
            exact absurd hpb1 (by simp)
        · simp only [if_neg hpP] at ha
          exact h1 k hk0 hkn hki a b ha hb
  · intro k hk0 hkn hP0 hkP a b ha hb
    rw [getElem?_iter_swap hp hc] at ha hb
    have hne1 : ((i - 1) / 2 - 1) / 2 ≠ i := by omega
    have hne2 : ((i - 1) / 2 - 1) / 2 ≠ (i - 1) / 2 := by omega
    have hne3 : k ≠ (i - 1) / 2 := by omega
    simp only [if_neg hne1, if_neg hne2] at ha
    have hap : lt a p = false := h1 ((i - 1) / 2) hP0 (by omega) (by omega) a p ha hp
    by_cases hki : k = i
    · simp only [if_pos hki, Option.some.injEq] at hb
      subst hb
      exact hap
    · simp only [if_neg hki, if_neg hne3] at hb
      have hpb : lt p b = false := h1 k hk0 hkn hki p b (hkP ▸ hp) hb
      exact hlt.neg_trans hap hpb

theorem siftUp_heapOn (hlt : StrictWeakOrder lt) (fuel : Nat) :
    ∀ (q : List T) (n i : Nat), i ≤ fuel → i < n → n ≤ q.length →
      HeapUpExcept lt q n i → HeapOn lt (siftUp lt fuel q i) n := by
  induction fuel with
  | zero =>
    intro q n i hif _ _ h
    have hi : i = 0 := by omega
    subst hi
    exact heapOn_of_heapUpExcept_zero h
  | succ f ih =>
    intro q n i hif hin hnl h
    simp only [siftUp]
    by_cases hi : i = 0
    · subst hi
      simpa using heapOn_of_heapUpExcept_zero h
    · rw [if_neg hi]
      have hpl : (i - 1) / 2 < q.length := by omega
      have hil : i < q.length := by omega
      rw [List.getElem?_eq_getElem hpl, List.getElem?_eq_getElem hil]
      simp only
      by_cases hpc : lt q[(i - 1) / 2] q[i] = true
      · rw [if_pos hpc]
        refine ih _ n _ (by omega) (by omega) (by rw [length_iter_swap]; exact hnl) ?_
        exact heapUpExcept_step hlt (by omega) hin (List.getElem?_eq_getElem hpl)
          (List.getElem?_eq_getElem hil) hpc h
      · rw [if_neg hpc]
        intro k hk0 hkn a b ha hb
        by_cases hki : k = i
        · subst hki
          rw [List.getElem?_eq_getElem hpl] at ha
          rw [List.getElem?_eq_getElem hil] at hb
          simp only [Option.some.injEq] at ha hb
          subst ha hb
          simpa using hpc
        · exact h.1 k hk0 hkn hki a b ha hb

end SiftUp

/-! ## Sifting down -/

section SiftDown

variable {T : Type} {lt : T → T → Bool}

theorem largerChild_cases (q : List T) (n i : Nat) :
    largerChild lt q n i = 2 * i + 1 ∨
      (largerChild lt q n i = 2 * i + 2 ∧ 2 * i + 2 < n) := by
  unfold largerChild
  split
  · split
    · split
      · right
        exact ⟨rfl, by assumption⟩
      · left
        rfl
    · left
      rfl
  · left
    rfl

theorem largerChild_lt {q : List T} {n i : Nat} (h : 2 * i + 1 < n) :
    largerChild lt q n i < n := by
  rcases @largerChild_cases T lt q n i with hc | ⟨hc, hn⟩ <;> omega

theorem largerChild_parent (q : List T) (n i : Nat) :
    (largerChild lt q n i - 1) / 2 = i ∧ i < largerChild lt q n i := by
  rcases @largerChild_cases T lt q n i with hc | ⟨hc, _⟩ <;> omega

/-- The chosen child is compared greater than by no child of `i`. -/
theorem largerChild_spec (hlt : StrictWeakOrder lt) {q : List T} {n i : Nat}
    (hnl : n ≤ q.length) {k : Nat} (hk0 : 0 < k) (hkn : k < n) (hki : (k - 1) / 2 = i)
    {x y : T} (hx : q[largerChild lt q n i]? = some x) (hy : q[k]? = some y) :
    lt x y = false := by
  have hk : k = 2 * i + 1 ∨ k = 2 * i + 2 := by omega
  unfold largerChild at hx
  by_cases h2 : 2 * i + 2 < n
  · rw [if_pos h2] at hx
    have hl : 2 * i + 1 < q.length := by omega
    have hr : 2 * i + 2 < q.length := by omega
    rw [List.getElem?_eq_getElem hl, List.getElem?_eq_getElem hr] at hx
    simp only at hx
    by_cases hlr : lt q[2 * i + 1] q[2 * i + 2] = true
    · rw [if_pos hlr, List.getElem?_eq_getElem hr] at hx
      simp only [Option.some.injEq] at hx
      subst hx
      rcases hk with hk | hk
      · subst hk
        rw [List.getElem?_eq_getElem hl] at hy
        simp only [Option.some.injEq] at hy
        subst hy
        exact hlt.asymm hlr
      · subst hk
        rw [List.getElem?_eq_getElem hr] at hy
        simp only [Option.some.injEq] at hy
        subst hy
        exact hlt.irrefl _
    · rw [if_neg hlr, List.getElem?_eq_getElem hl] at hx
      simp only [Option.some.injEq] at hx
      subst hx
      rcases hk with hk | hk
      · subst hk
        rw [List.getElem?_eq_getElem hl] at hy
        simp only [Option.some.injEq] at hy
        subst hy
        exact hlt.irrefl _
      · subst hk
        rw [List.getElem?_eq_getElem hr] at hy
        simp only [Option.some.injEq] at hy
        subst hy
        simpa using hlr
  · rw [if_neg h2] at hx
    have hk1 : k = 2 * i + 1 := by omega
    subst hk1
    rw [hx] at hy
    simp only [Option.some.injEq] at hy
    subst hy
    exact hlt.irrefl _

theorem length_siftDown (fuel : Nat) (q : List T) (n i : Nat) :
    (siftDown lt fuel q n i).length = q.length := by
  induction fuel generalizing q i with
  | zero => rfl
  | succ f ih =>
    simp only [siftDown]
    split
    · split
      · split
        · rw [ih, length_iter_swap]
        · rfl
      · rfl
    · rfl

theorem siftDown_perm (fuel : Nat) (q : List T) (n i : Nat) :
    List.Perm (siftDown lt fuel q n i) q := by
  induction fuel generalizing q i with
  | zero => exact List.Perm.refl _
  | succ f ih =>
    simp only [siftDown]
    split
    · split
      · split
        · exact (ih _ _).trans (iter_swap_perm _ _ _)
        · exact List.Perm.refl _
      · exact List.Perm.refl _
    · exact List.Perm.refl _

/-- Sifting down inside the first `n` positions leaves the later positions alone. -/
theorem getElem?_siftDown_of_le (fuel : Nat) (q : List T) (n i k : Nat) (hk : n ≤ k) :
    (siftDown lt fuel q n i)[k]? = q[k]? := by
  induction fuel generalizing q i with
  | zero => rfl
  | succ f ih =>
    simp only [siftDown]
    split
    · next hin =>
      split
      · next a b ha hb =>
        split
        · rw [ih, getElem?_iter_swap ha hb]
          have h1 := @largerChild_lt T lt q n i hin
          rw [if_neg (by omega), if_neg (by omega)]
        · rfl
      · rfl
    · rfl

theorem heapOn_of_heapDownExcept_leaf {q : List T} {n i : Nat} (hin : ¬ 2 * i + 1 < n)
    (h : HeapDownExcept lt q n i) : HeapOn lt q n := by
  intro k hk0 hkn a b ha hb
  exact h.1 k hk0 hkn (by omega) a b ha hb

theorem heapDownExcept_step (hlt : StrictWeakOrder lt) {q : List T} {n i : Nat} {a b : T}
    (hin : 2 * i + 1 < n) (hnl : n ≤ q.length) (ha : q[i]? = some a)
    (hb : q[largerChild lt q n i]? = some b) (hab : lt a b = true)
    (h : HeapDownExcept lt q n i) :
    HeapDownExcept lt (iter_swap q i (largerChild lt q n i)) n (largerChild lt q n i) := by
  obtain ⟨h1, h2⟩ := h
  obtain ⟨hcp, hic⟩ := @largerChild_parent T lt q n i
  refine ⟨?_, ?_⟩
  · intro k hk0 hkn hkc x y hx hy
    rw [getElem?_iter_swap ha hb] at hx hy
    simp only [if_neg hkc] at hx
    by_cases hk : k = largerChild lt q n i
    · simp only [if_pos hk, Option.some.injEq] at hy
      have hpi : (k - 1) / 2 = i := by rw [hk]; exact hcp
      simp only [if_pos hpi, Option.some.injEq] at hx
      subst hx hy
      exact hlt.asymm hab
    · simp only [if_neg hk] at hy
      by_cases hki : k = i
      · simp only [if_pos hki, Option.some.injEq] at hy
        have hne : (k - 1) / 2 ≠ i := by omega
        simp only [if_neg hne] at hx
        subst hy
        subst hki
        exact h2 _ (by omega) (largerChild_lt hin) hk0 hcp x _ hx hb
      · simp only [if_neg hki] at hy
        by_cases hpi : (k - 1) / 2 = i
        · simp only [if_pos hpi, Option.some.injEq] at hx
          subst hx
          exact largerChild_spec hlt hnl hk0 hkn hpi hb hy
        · simp only [if_neg hpi] at hx
          exact h1 k hk0 hkn hpi x y hx hy
  · intro k hk0 hkn hc0 hkc x y hx hy
    rw [getElem?_iter_swap ha hb] at hx hy
    have hne1 : (largerChild lt q n i - 1) / 2 ≠ largerChild lt q n i := by omega
    have hne2 : k ≠ largerChild lt q n i := by omega
    have hne3 : k ≠ i := by omega
    have hne4 : i ≠ largerChild lt q n i := by omega
    simp only [if_neg hne1, hcp, if_neg hne4, if_true, Option.some.injEq] at hx
    simp only [if_neg hne2, if_neg hne3] at hy
    subst hx
    exact h1 k hk0 hkn (by omega) _ y (hkc ▸ hb) hy

theorem siftDown_heapOn (hlt : StrictWeakOrder lt) (fuel : Nat) :
    ∀ (q : List T) (n i : Nat), n - i ≤ fuel → n ≤ q.length →
      HeapDownExcept lt q n i → HeapOn lt (siftDown lt fuel q n i) n := by
  induction fuel with
  | zero =>
    intro q n i hif _ h
    exact heapOn_of_heapDownExcept_leaf (by omega) h
  | succ f ih =>
    intro q n i hif hnl h
    simp only [siftDown]
    by_cases hin : 2 * i + 1 < n
    · rw [if_pos hin]
      have hcn := @largerChild_lt T lt q n i hin
      obtain ⟨hcp, hic⟩ := @largerChild_parent T lt q n i
      have hil : i < q.length := by omega
      have hcl : largerChild lt q n i < q.length := by omega
      have ha := List.getElem?_eq_getElem hil
      have hb := List.getElem?_eq_getElem hcl
      rw [ha, hb]
      simp only
      by_cases hab : lt q[i] q[largerChild lt q n i] = true
      · rw [if_pos hab]
        refine ih _ n _ (by omega) (by rw [length_iter_swap]; exact hnl) ?_
        exact heapDownExcept_step hlt hin hnl ha hb hab h
      · rw [if_neg hab]
        intro k hk0 hkn x y hx hy
        by_cases hpi : (k - 1) / 2 = i
        · rw [hpi, ha] at hx
          simp only [Option.some.injEq] at hx
          subst hx
          have h1 : lt q[largerChild lt q n i] y = false :=
            largerChild_spec hlt hnl hk0 hkn hpi hb hy
          exact hlt.neg_trans (by simpa using hab) h1
        · exact h.1 k hk0 hkn hpi x y hx hy
    · rw [if_neg hin]
      exact heapOn_of_heapDownExcept_leaf hin h

end SiftDown

/-! ## `push_heap` and `pop_heap` -/

section HeapOps

variable {T : Type} {lt : T → T → Bool}

theorem isHeap_nil : IsHeap lt ([] : List T) := by
  intro i _ hi
  simp at hi

theorem length_push_heap (q : List T) : (push_heap lt q).length = q.length :=
  length_siftUp _ _ _

theorem push_heap_perm (q : List T) : List.Perm (push_heap lt q) q :=
  siftUp_perm _ _ _

/-- Heap completion: `push_heap` completes a heap whose last position alone is out of place. -/
theorem push_heap_isHeap (hlt : StrictWeakOrder lt) {q : List T}
    (h : HeapOn lt q (q.length - 1)) : IsHeap lt (push_heap lt q) := by
  unfold IsHeap
  rw [length_push_heap]
  by_cases hq : q.length = 0
  · intro i _ hi
    omega
  · refine siftUp_heapOn hlt q.length q q.length (q.length - 1) (by omega) (by omega)
      (Nat.le_refl _) ⟨?_, ?_⟩
    · intro k hk0 hkn hk a b ha hb
      exact h k hk0 (by omega) a b ha hb
    · intro k hk0 hkn _ hk
      omega

theorem length_pop_heap (q : List T) : (pop_heap lt q).length = q.length := by
  unfold pop_heap
  rw [length_siftDown, length_iter_swap]

theorem pop_heap_perm (q : List T) : List.Perm (pop_heap lt q) q :=
  (siftDown_perm _ _ _ _).trans (iter_swap_perm _ _ _)

/-- The root goes last: `pop_heap` moves the first value to the last position. -/
theorem getElem?_pop_heap_last {q : List T} {r : T} (hr : q[0]? = some r) :
    (pop_heap lt q)[q.length - 1]? = some r := by
  have h0 : 0 < q.length := (List.getElem?_eq_some.mp hr).1
  have hl : q.length - 1 < q.length := by omega
  unfold pop_heap
  rw [getElem?_siftDown_of_le _ _ _ _ _ (Nat.le_refl _),
    getElem?_iter_swap hr (List.getElem?_eq_getElem hl), if_pos rfl]

/-- The rest stays a heap: `pop_heap` leaves a heap in all positions but the last. -/
theorem pop_heap_heapOn (hlt : StrictWeakOrder lt) {q : List T} (h : IsHeap lt q) :
    HeapOn lt (pop_heap lt q) (q.length - 1) := by
  by_cases hq : q.length = 0
  · intro i _ hi
    omega
  · have h0 : 0 < q.length := by omega
    have hl : q.length - 1 < q.length := by omega
    have hr := List.getElem?_eq_getElem h0
    have hb := List.getElem?_eq_getElem hl
    unfold pop_heap
    refine siftDown_heapOn hlt _ _ _ 0 (by omega) (by rw [length_iter_swap]; omega) ⟨?_, ?_⟩
    · intro k hk0 hkn hk x y hx hy
      rw [getElem?_iter_swap hr hb] at hx hy
      rw [if_neg (by omega), if_neg (by omega)] at hx hy
      exact h k hk0 (by omega) x y hx hy
    · intro k _ _ h00
      omega

theorem isHeap_dropLast {q : List T} (h : HeapOn lt q (q.length - 1)) :
    IsHeap lt q.dropLast := by
  intro i hi0 hin a b ha hb
  rw [List.length_dropLast] at hin
  rw [List.getElem?_dropLast] at ha hb
  rw [if_pos (by omega)] at ha hb
  exact h i hi0 hin a b ha hb

theorem heapOn_set_of_le {q : List T} (t : T) {n k : Nat} (hk : n ≤ k) (h : HeapOn lt q n) :
    HeapOn lt (q.set k t) n := by
  intro i hi0 hin a b ha hb
  rw [List.getElem?_set_ne (by omega)] at ha hb
  exact h i hi0 hin a b ha hb

theorem heapOn_append_singleton {q : List T} (t : T) (h : IsHeap lt q) :
    HeapOn lt (q ++ [t]) ((q ++ [t]).length - 1) := by
  intro i hi0 hin a b ha hb
  simp only [List.length_append, List.length_singleton, Nat.add_sub_cancel] at hin
  rw [List.getElem?_append_left (by omega)] at ha hb
  exact h i hi0 hin a b ha hb

/-- The first value of a heap is compared greater than by no value of the heap. -/
theorem isHeap_root_not_lt (hlt : StrictWeakOrder lt) {q : List T} (h : IsHeap lt q) {r : T}
    (hr : q[0]? = some r) : ∀ (k : Nat) (x : T), q[k]? = some x → lt r x = false := by
  intro k
  induction k using Nat.strong_induction_on with
  | _ k ih =>
    intro x hx
    by_cases hk : k = 0
    · subst hk
      rw [hr] at hx
      simp only [Option.some.injEq] at hx
      subst hx
      exact hlt.irrefl _
    · have hkl : k < q.length := (List.getElem?_eq_some.mp hx).1
      have hpl : (k - 1) / 2 < q.length := by omega
      have hp := List.getElem?_eq_getElem hpl
      have h1 := ih ((k - 1) / 2) (by omega) _ hp
      have h2 := h k (by omega) hkl _ x hp hx
      exact hlt.neg_trans h1 h2

theorem isHeap_root_isWorst (hlt : StrictWeakOrder lt) {q : List T} (h : IsHeap lt q) {r : T}
    (hr : q[0]? = some r) : IsWorst lt q r := by
  refine ⟨List.getElem?_mem hr, ?_⟩
  intro x hx
  obtain ⟨k, hk⟩ := List.mem_iff_getElem?.mp hx
  exact isHeap_root_not_lt hlt h hr k x hk

/-- Removal of the root: `pop_heap` followed by `pop_back` takes the first value out of
the sequence. -/
theorem pop_heap_dropLast_perm {q : List T} {r : T} (hr : q[0]? = some r) :
    List.Perm q (r :: (pop_heap lt q).dropLast) := by
  have h0 : 0 < q.length := (List.getElem?_eq_some.mp hr).1
  have hne : pop_heap lt q ≠ [] := by
    intro hnil
    have hlen := @length_pop_heap T lt q
    rw [hnil] at hlen
    simp at hlen
    omega
  have hlast : (pop_heap lt q).getLast hne = r := by
    have h1 := @getElem?_pop_heap_last T lt q r hr
    rw [← @length_pop_heap T lt q, ← List.getLast?_eq_getElem?,
      List.getLast?_eq_getLast _ hne] at h1
    simpa using h1
  have hsplit := List.dropLast_concat_getLast hne
  rw [hlast] at hsplit
  have hp : List.Perm (r :: (pop_heap lt q).dropLast) (pop_heap lt q) := by
    conv_rhs => rw [← hsplit]
    exact (List.perm_append_singleton r _).symm
  exact (hp.trans (pop_heap_perm q)).symm

end HeapOps

/-! ## The queue operations -/

namespace limited_priority_queue

variable {T : Type}

theorem ne_nil_of_empty_false {s : limited_priority_queue T} (h : s.empty = false) :
    s.m_queue ≠ [] := by
  intro hnil
  simp [empty, hnil] at h

theorem pop_of_ne_nil {s : limited_priority_queue T} (h : s.m_queue ≠ []) :
    pop s = some { s with m_queue := (pop_heap s.m_compare s.m_queue).dropLast } := by
  unfold pop
  rw [if_neg]
  simpa using h

theorem ne_nil_of_pop {s s1 : limited_priority_queue T} (h : pop s = some s1) :
    s.m_queue ≠ [] := by
  intro hnil
  simp [pop, hnil] at h

theorem head_of_ne_nil {q : List T} (h : q ≠ []) : ∃ r, q[0]? = some r := by
  cases q with
  | nil => exact absurd rfl h
  | cons x xs => exact ⟨x, by simp⟩

theorem length_pop_queue (lt : T → T → Bool) (q : List T) :
    ((pop_heap lt q).dropLast).length = q.length - 1 := by
  rw [List.length_dropLast, length_pop_heap]

/-- Heap preservation: `push` keeps the comparator and keeps a heap a heap. -/
theorem push_isHeap {s s1 : limited_priority_queue T} {t : T}
    (hlt : StrictWeakOrder s.m_compare) (h : IsHeap s.m_compare s.m_queue)
    (hp : push s t = some s1) :
    s1.m_compare = s.m_compare ∧ IsHeap s.m_compare s1.m_queue := by
  unfold push at hp
  split at hp
  · simp only [Option.some.injEq] at hp
    subst hp
    exact ⟨rfl, push_heap_isHeap hlt (heapOn_append_singleton t h)⟩
  · split at hp
    · exact absurd hp (by simp)
    · split at hp
      · simp only [Option.some.injEq] at hp
        subst hp
        refine ⟨rfl, push_heap_isHeap hlt ?_⟩
        rw [List.length_set, length_pop_heap]
        exact heapOn_set_of_le t (Nat.le_refl _) (pop_heap_heapOn hlt h)
      · simp only [Option.some.injEq] at hp
        subst hp
        exact ⟨rfl, h⟩

/-- Heap preservation: `pop` keeps the comparator and keeps a heap a heap. -/
theorem pop_isHeap {s s1 : limited_priority_queue T}
    (hlt : StrictWeakOrder s.m_compare) (h : IsHeap s.m_compare s.m_queue)
    (hp : pop s = some s1) :
    s1.m_compare = s.m_compare ∧ IsHeap s.m_compare s1.m_queue := by
  rw [pop_of_ne_nil (ne_nil_of_pop hp)] at hp
  simp only [Option.some.injEq] at hp
  subst hp
  refine ⟨rfl, isHeap_dropLast ?_⟩
  have h1 := pop_heap_heapOn hlt h
  rw [length_pop_heap]
  exact h1

/-- The loop of `set_max_size` ends, with the size cut down to the capacity. -/
theorem popLoop_total (fuel : Nat) : ∀ (s : limited_priority_queue T),
    s.size ≤ fuel + s.m_maxSize →
    ∃ s1, popLoop fuel s = some s1 ∧ s1.m_maxSize = s.m_maxSize ∧
      s1.m_compare = s.m_compare ∧ s1.size = min s.size s.m_maxSize := by
  induction fuel with
  | zero =>
    intro s hs
    refine ⟨s, ?_, rfl, rfl, ?_⟩
    · simp only [popLoop]
      rw [if_neg (by omega)]
    · omega
  | succ f ih =>
    intro s hs
    by_cases hgt : s.size > s.m_maxSize
    · have hne : s.m_queue ≠ [] := by
        intro hnil
        simp [size, hnil] at hgt
      obtain ⟨s1, h1, h2, h3, h4⟩ :=
        ih { s with m_queue := (pop_heap s.m_compare s.m_queue).dropLast } (by
          simp only [size, length_pop_queue]
          simp only [size] at hs
          omega)
      refine ⟨s1, ?_, h2, h3, ?_⟩
      · simp only [popLoop]
        rw [if_pos hgt, pop_of_ne_nil hne]
        exact h1
      · simp only [size, length_pop_queue] at h4
        simp only [size] at hgt ⊢
        omega
    · refine ⟨s, ?_, rfl, rfl, ?_⟩
      · simp only [popLoop]
        rw [if_neg hgt]
      · omega

/-- The loop of `set_max_size` on a heap keeps a heap and discards values none of
which compares less than a value it keeps. -/
theorem popLoop_heap (fuel : Nat) : ∀ (s s1 : limited_priority_queue T),
    StrictWeakOrder s.m_compare → IsHeap s.m_compare s.m_queue → popLoop fuel s = some s1 →
    IsHeap s.m_compare s1.m_queue ∧
      ∃ d : List T, List.Perm s.m_queue (s1.m_queue ++ d) ∧
        ∀ x ∈ s1.m_queue, ∀ y ∈ d, s.m_compare y x = false := by
  induction fuel with
  | zero =>
    intro s s1 _ h hp
    simp only [popLoop] at hp
    split at hp
    · exact absurd hp (by simp)
    · simp only [Option.some.injEq] at hp
      subst hp
      exact ⟨h, [], by simp, by simp⟩
  | succ f ih =>
    intro s s1 hlt h hp
    simp only [popLoop] at hp
    split at hp
    · next hgt =>
      have hne : s.m_queue ≠ [] := by
        intro hnil
        simp [size, hnil] at hgt
      obtain ⟨r, hr⟩ := head_of_ne_nil hne
      have hpop := pop_of_ne_nil hne
      rw [hpop] at hp
      simp only [Option.some_bind] at hp
      obtain ⟨_, hh⟩ := pop_isHeap hlt h hpop
      obtain ⟨h1, d, hd, hbest⟩ :=
        ih { s with m_queue := (pop_heap s.m_compare s.m_queue).dropLast } s1 hlt hh hp
      have hperm := @pop_heap_dropLast_perm T s.m_compare s.m_queue r hr
      have hworst := isHeap_root_isWorst hlt h hr
      refine ⟨h1, r :: d, ?_, ?_⟩
      · exact hperm.trans ((hd.cons r).trans List.perm_middle.symm)
      · intro x hx y hy
        rcases List.mem_cons.mp hy with hy | hy
        · subst hy
          apply hworst.2
          apply hperm.symm.subset
          apply List.mem_cons_of_mem
          exact hd.symm.subset (List.mem_append_left _ hx)
        · exact hbest x hx y hy
    · simp only [Option.some.injEq] at hp
      subst hp
      exact ⟨h, [], by simp, by simp⟩

/-- Every reachable state stores a binary max-heap under its own comparator. -/
theorem reachable_isHeap {s : limited_priority_queue T} (hs : Reachable s) :
    StrictWeakOrder s.m_compare → IsHeap s.m_compare s.m_queue := by
  induction hs with
  | create maxSize compare =>
    intro _
    exact isHeap_nil
  | @push s0 s1 t _ hp ih =>
    intro hlt
    have hc : s1.m_compare = s0.m_compare := by
      unfold limited_priority_queue.push at hp
      split at hp
      · simp only [Option.some.injEq] at hp
        subst hp
        rfl
      · split at hp
        · exact absurd hp (by simp)
        · split at hp <;>
          · simp only [Option.some.injEq] at hp
            subst hp
            rfl
    rw [hc] at hlt ⊢
    exact (push_isHeap hlt (ih hlt) hp).2
  | @pop s0 s1 _ hp ih =>
    intro hlt
    have hc : s1.m_compare = s0.m_compare := by
      rw [pop_of_ne_nil (ne_nil_of_pop hp)] at hp
      simp only [Option.some.injEq] at hp
      subst hp
      rfl
    rw [hc] at hlt ⊢
    exact (pop_isHeap hlt (ih hlt) hp).2
  | @set_max_size s0 s1 maxSize _ hp ih =>
    intro hlt
    unfold limited_priority_queue.set_max_size at hp
    obtain ⟨s2, h1, _, h3, _⟩ := popLoop_total s0.size
      { s0 with m_maxSize := if maxSize = 0 then 1 else maxSize } (by simp only [size]; omega)
    rw [hp] at h1
    simp only [Option.some.injEq] at h1
    subst h1
    simp only at h3
    rw [h3] at hlt ⊢
    exact (popLoop_heap s0.size
      { s0 with m_maxSize := if maxSize = 0 then 1 else maxSize } s1 hlt (ih hlt) hp).1
  | clear _ _ =>
    intro _
    exact isHeap_nil
  | swap_fst _ _ _ ih2 => exact ih2
  | swap_snd _ _ ih1 _ => exact ih1

/-- Under the capacity bound `push` is defined, keeps the capacity and the
comparator, and leaves `min (size + 1) capacity` values. -/
theorem push_total {s : limited_priority_queue T} (h : CapacityInv s) (t : T) :
    ∃ s1, push s t = some s1 ∧ s1.m_maxSize = s.m_maxSize ∧ s1.m_compare = s.m_compare ∧
      s1.size = min (s.size + 1) s.m_maxSize := by
  obtain ⟨h1, h2⟩ := h
  simp only [max_size, size] at h1 h2
  unfold push
  by_cases hlt : s.m_queue.length < s.m_maxSize
  · rw [if_pos hlt]
    refine ⟨_, rfl, rfl, rfl, ?_⟩
    simp only [size, length_push_heap, List.length_append, List.length_singleton]
    omega
  · rw [if_neg hlt]
    have hb : s.m_queue.getLast? = some (s.m_queue[s.m_queue.length - 1]) := by
      rw [List.getLast?_eq_getElem?]
      exact List.getElem?_eq_getElem (by omega)
    rw [hb]
    simp only
    split
    · refine ⟨_, rfl, rfl, rfl, ?_⟩
      simp only [size, length_push_heap, List.length_set, length_pop_heap]
      omega
    · refine ⟨_, rfl, rfl, rfl, ?_⟩
      simp only [size]
      omega

theorem reachable_full543 : Reachable full543 := by
  have h0 : Reachable (create 3 less) := Reachable.create 3 less
  have h1 : Reachable (⟨[5], 3, less⟩ : limited_priority_queue Nat) := Reachable.push 5 h0 rfl
  have h2 : Reachable (⟨[5, 4], 3, less⟩ : limited_priority_queue Nat) :=
    Reachable.push 4 h1 rfl
  exact Reachable.push 3 h2 rfl

/-! ## The claims -/

/-- C1 (the code departs from it): pushing 1, 5, 3 into a fresh queue of capacity 2 with
the default comparator leaves the stored sequence 5, 1, which is not the two
smallest of the pushed values: 3 was discarded although it is smaller than the
retained 5, because `push` compares the new value with `m_queue.back()`. -/
theorem push_keeps_value_that_is_not_among_smallest :
    pushAll (create 2 less) [1, 5, 3] = some ⟨[5, 1], 2, less⟩ ∧
      ¬ IsBest less 2 [1, 5, 3] [5, 1] := by
  refine ⟨rfl, ?_⟩
  rintro ⟨_, d, hperm, hbest⟩
  have h3 : 3 ∈ [5, 1] ++ d := hperm.subset (by simp)
  have h3d : 3 ∈ d := by simpa using h3
  have hlt := hbest 5 (by simp) 3 h3d
  simp [less] at hlt

/-- C2 (the code departs from it): with capacity 3 and the pushes 5, 1, 9, 2, 7, 0 the
sequence of `top()` values read while draining is 0, 0, 0 and not 2, 1, 0:
`top()` reads `m_queue.back()` while `pop()` removes the heap root. -/
theorem drain_reads_back_of_heap :
    (pushAll (create 3 less) [5, 1, 9, 2, 7, 0]).bind drainAll = some [0, 0, 0] := by
  rfl

/-- C3 (the code departs from it): in the reachable state with capacity 2 after the
pushes 5, 1, `top()` returns 1 although the retained 5 is worse: `less 1 5`
holds, so `top()` is strictly better than another retained element. -/
theorem top_is_not_worst :
    ∃ s : limited_priority_queue Nat, Reachable s ∧ pushAll (create 2 less) [5, 1] = some s ∧
      top s = some 1 ∧ 5 ∈ s.elements ∧ s.m_compare 1 5 = true := by
  refine ⟨⟨[5, 1], 2, less⟩, ?_, rfl, rfl, by simp [elements], rfl⟩
  have h0 : Reachable (create 2 less) := Reachable.create 2 less
  have h1 : Reachable (⟨[5], 2, less⟩ : limited_priority_queue Nat) := Reachable.push 5 h0 rfl
  exact Reachable.push 1 h1 rfl

/-- C4: in every non-empty reachable state whose comparator is a strict weak ordering,
`pop()` is defined and removes exactly one occurrence of a worst retained
element `w`: the stored values before are `w` together with the stored values
after, `size()` drops by exactly one and `max_size()` is unchanged. -/
theorem pop_removes_one_worst (s : limited_priority_queue T) (hs : Reachable s)
    (hlt : StrictWeakOrder s.m_compare) (hne : s.empty = false) :
    ∃ s1 w, pop s = some s1 ∧ IsWorst s.m_compare s.elements w ∧
      List.Perm s.elements (w :: s1.elements) ∧ s1.size + 1 = s.size ∧
      s1.max_size = s.max_size := by
  have hnil := ne_nil_of_empty_false hne
  obtain ⟨r, hr⟩ := head_of_ne_nil hnil
  refine ⟨_, r, pop_of_ne_nil hnil, isHeap_root_isWorst hlt (reachable_isHeap hs hlt) hr,
    pop_heap_dropLast_perm hr, ?_, rfl⟩
  have hpos : 0 < s.m_queue.length := List.length_pos.mpr hnil
  simp only [size, length_pop_queue]
  omega

/-- Instance of C4 on the queue of capacity 3 holding 5, 4, 3: `pop()` removes 5. -/
theorem pop_removes_one_worst_witness :
    pop full543 = some ⟨[4, 3], 3, less⟩ ∧
      ∃ s1 w, pop full543 = some s1 ∧ IsWorst full543.m_compare full543.elements w ∧
        List.Perm full543.elements (w :: s1.elements) ∧ s1.size + 1 = full543.size ∧
        s1.max_size = full543.max_size :=
  ⟨rfl, pop_removes_one_worst full543 reachable_full543 strictWeakOrder_less rfl⟩

/-- C5: the capacity bound `max_size() ≥ 1 ∧ size() ≤ max_size()` holds for a freshly
constructed queue whatever capacity is requested (0 included), and every
operation is defined on a state with the bound (`pop` on a non-empty one) and
preserves it: `push`, `pop`, `set_max_size` with any argument, `clear`, `swap`. -/
theorem capacity_bound_invariant :
    (∀ (maxSize : Nat) (compare : T → T → Bool), CapacityInv (create maxSize compare)) ∧
    (∀ s : limited_priority_queue T, CapacityInv s →
      (∀ t, ∃ s1, push s t = some s1 ∧ CapacityInv s1) ∧
      (s.empty = false → ∃ s1, pop s = some s1 ∧ CapacityInv s1) ∧
      (∀ m, ∃ s1, set_max_size s m = some s1 ∧ CapacityInv s1) ∧
      CapacityInv (clear s) ∧
      (∀ queue, CapacityInv queue →
        CapacityInv (swap s queue).1 ∧ CapacityInv (swap s queue).2)) := by
  refine ⟨?_, ?_⟩
  · intro maxSize compare
    simp only [CapacityInv, create, max_size, size, List.length_nil]
    split <;> omega
  · intro s hs
    have hs1 := hs
    obtain ⟨h1, h2⟩ := hs1
    simp only [max_size, size] at h1 h2
    refine ⟨?_, ?_, ?_, ?_, ?_⟩
    · intro t
      obtain ⟨s1, hp, hm, _, hsz⟩ := push_total hs t
      refine ⟨s1, hp, ?_⟩
      simp only [CapacityInv, max_size, size] at hsz ⊢
      omega
    · intro hne
      refine ⟨_, pop_of_ne_nil (ne_nil_of_empty_false hne), ?_⟩
      simp only [CapacityInv, max_size, size, length_pop_queue]
      omega
    · intro m
      obtain ⟨s1, hp, hm, _, hsz⟩ := popLoop_total s.size
        { s with m_maxSize := if m = 0 then 1 else m } (by simp only [size]; omega)
      refine ⟨s1, hp, ?_⟩
      simp only [CapacityInv, max_size, size] at hm hsz ⊢
      rw [hm, hsz]
      split <;> omega
    · simp only [CapacityInv, clear, max_size, size, List.length_nil]
      omega
    · intro queue hq
      exact ⟨hq, hs⟩

/-- C6: on a full queue (`size() == max_size()`) whose comparator is a strict weak
ordering, pushing a value `v` that is not strictly better than a worst
retained element `w` leaves the whole state unchanged; this covers every `v`
strictly worse than `w`.  It holds in every such state, reachable or not. -/
theorem push_full_not_better_is_noop (s : limited_priority_queue T)
    (hlt : StrictWeakOrder s.m_compare) (hfull : s.size = s.max_size) (w v : T)
    (hw : IsWorst s.m_compare s.elements w) :
    (s.m_compare v w = false → push s v = some s) ∧
      (s.m_compare w v = true → push s v = some s) := by
  have key : s.m_compare v w = false → push s v = some s := by
    intro hv
    obtain ⟨hmem, hworst⟩ := hw
    simp only [elements] at hmem hworst
    simp only [size, max_size] at hfull
    have hpos : 0 < s.m_queue.length := List.length_pos_of_mem hmem
    have hb : s.m_queue.getLast? = some (s.m_queue[s.m_queue.length - 1]) := by
      rw [List.getLast?_eq_getElem?]
      exact List.getElem?_eq_getElem (by omega)
    have hvb : s.m_compare v (s.m_queue[s.m_queue.length - 1]) = false :=
      hlt.neg_trans hv (hworst _ (List.getElem_mem _))
    unfold push
    rw [if_neg (by omega), hb]
    simp only [hvb]
    rfl
  exact ⟨key, fun hwv => key (hlt.asymm hwv)⟩

/-- Instance of C6: capacity 3, pushes 5, 4, 3, then `push(6)` leaves the state as it is. -/
theorem push_full_not_better_is_noop_witness :
    IsWorst less [5, 4, 3] 5 ∧ less 6 5 = false ∧ push full543 6 = some full543 ∧
      full543.elements = [5, 4, 3] :=
  have hw : IsWorst less [5, 4, 3] 5 := ⟨by simp, by simp [less]⟩
  ⟨hw, rfl, (push_full_not_better_is_noop full543 strictWeakOrder_less rfl 5 6 hw).1 rfl, rfl⟩

/-- C7: in every reachable state whose comparator is a strict weak ordering, for every `m`
with `max m 1 < size()`, `set_max_size(m)` is defined, sets `max_size()` to
`max m 1` and retains `max m 1` best elements of the previously retained ones:
none of the discarded values compares less than a value that is kept. -/
theorem set_max_size_shrink_keeps_best (s : limited_priority_queue T) (hs : Reachable s)
    (hlt : StrictWeakOrder s.m_compare) (m : Nat) (hm : max m 1 < s.size) :
    ∃ s1, set_max_size s m = some s1 ∧ s1.max_size = max m 1 ∧
      IsBest s.m_compare (max m 1) s.elements s1.elements := by
  have hmax : (if m = 0 then 1 else m) = max m 1 := by
    split <;> omega
  obtain ⟨s1, hp, hm1, _, hsz⟩ := popLoop_total s.size
    { s with m_maxSize := if m = 0 then 1 else m } (by simp only [size]; omega)
  have hheap : IsHeap s.m_compare s.m_queue := reachable_isHeap hs hlt
  obtain ⟨_, d, hd, hbest⟩ := popLoop_heap s.size
    { s with m_maxSize := if m = 0 then 1 else m } s1 hlt hheap hp
  simp only [hmax] at hm1 hsz
  refine ⟨s1, hp, hm1, ?_, d, hd, hbest⟩
  simp only [size] at hsz hm
  simp only [elements]
  omega

/-- Instance of C7: `set_max_size(1)` on the retained 5, 4, 3 leaves 3. -/
theorem set_max_size_shrink_keeps_best_witness :
    set_max_size full543 1 = some ⟨[3], 1, less⟩ ∧
      ∃ s1, set_max_size full543 1 = some s1 ∧ s1.max_size = max 1 1 ∧
        IsBest full543.m_compare (max 1 1) full543.elements s1.elements :=
  ⟨rfl, set_max_size_shrink_keeps_best full543 reachable_full543 strictWeakOrder_less 1
    (by decide)⟩

/-- C8: in every state, for every `m` with `m ≥ size()` and `m ≥ 1`, `set_max_size(m)`
leaves the stored sequence as it is and sets `max_size()` to `m`. -/
theorem set_max_size_grow_is_frame (s : limited_priority_queue T) (m : Nat)
    (hsize : s.size ≤ m) (hpos : 1 ≤ m) :
    set_max_size s m = some { s with m_maxSize := m } := by
  have hm : (if m = 0 then 1 else m) = m := by
    split <;> omega
  unfold set_max_size
  rw [hm]
  cases hsz : s.size with
  | zero =>
    simp only [popLoop]
    rw [if_neg (by simp only [size] at hsz ⊢; omega)]
  | succ k =>
    simp only [popLoop]
    rw [if_neg (by simp only [size] at hsize ⊢; omega)]

/-- Instance of C8: `set_max_size(5)` on the queue of capacity 3 holding 5, 4, 3. -/
theorem set_max_size_grow_is_frame_witness :
    set_max_size full543 5 = some { full543 with m_maxSize := 5 } :=
  set_max_size_grow_is_frame full543 5 (by decide) (by decide)

/-- C9: on every queue with `size() < max_size()`, `push(v)` is defined and accepts `v`:
`size()` grows by exactly one, the stored values are the previous ones
together with `v`, and `max_size()` is unchanged. -/
theorem push_below_capacity_accepts (s : limited_priority_queue T) (v : T)
    (h : s.size < s.max_size) :
    ∃ s1, push s v = some s1 ∧ s1.size = s.size + 1 ∧
      List.Perm s1.elements (v :: s.elements) ∧ s1.max_size = s.max_size := by
  simp only [size, max_size] at h
  refine ⟨{ s with m_queue := push_heap s.m_compare (s.m_queue ++ [v]) }, ?_, ?_, ?_, rfl⟩
  · unfold push
    rw [if_pos h]
  · simp [size, length_push_heap]
  · simp only [elements]
    exact (push_heap_perm _).trans (List.perm_append_singleton v _)

/-- Instance of C9: the first push into a fresh queue of capacity 3. -/
theorem push_below_capacity_accepts_witness :
    ∃ s1, push (create 3 less) 5 = some s1 ∧ s1.size = (create 3 less).size + 1 ∧
      List.Perm s1.elements (5 :: (create 3 less).elements) ∧
      s1.max_size = (create 3 less).max_size :=
  push_below_capacity_accepts (create 3 less) 5 (by decide)

/-- C10: a requested capacity 0 is normalised to 1 and is no error: a queue constructed
with capacity 0 is empty with `max_size() == 1`, a queue constructed with
capacity `n ≥ 1` is empty with `max_size() == n`, and on every state
`set_max_size(0)` is defined and has the same effect as `set_max_size(1)`:
both end in the same state, whose `max_size()` is 1, whose `size()` is
`min size() 1` and whose comparator is the one before. -/
theorem capacity_zero_is_normalised :
    (∀ compare : T → T → Bool,
      (create 0 compare).empty = true ∧ (create 0 compare).max_size = 1) ∧
    (∀ (n : Nat) (compare : T → T → Bool), 1 ≤ n →
      (create n compare).empty = true ∧ (create n compare).max_size = n) ∧
    (∀ s : limited_priority_queue T,
      set_max_size s 0 = set_max_size s 1 ∧
        ∃ s1, set_max_size s 0 = some s1 ∧ set_max_size s 1 = some s1 ∧
          s1.max_size = 1 ∧ s1.size = min s.size 1 ∧ s1.m_compare = s.m_compare) := by
  refine ⟨?_, ?_, ?_⟩
  · intro compare
    exact ⟨rfl, rfl⟩
  · intro n compare hn
    refine ⟨rfl, ?_⟩
    simp only [create, max_size]
    rw [if_neg (by omega)]
  · intro s
    refine ⟨rfl, ?_⟩
    obtain ⟨s1, hp, hm, hc, hsz⟩ := popLoop_total s.size
      { s with m_maxSize := 1 } (by simp only [size]; omega)
    exact ⟨s1, hp, hp, hm, hsz, hc⟩

/-! ## Further facts about the operations -/

/-- Every reachable state satisfies the capacity bound. -/
theorem reachable_capacityInv {s : limited_priority_queue T} (hs : Reachable s) :
    CapacityInv s := by
  induction hs with
  | create maxSize compare =>
    simp only [CapacityInv, create, max_size, size, List.length_nil]
    split <;> omega
  | @push s0 s1 t _ hp ih =>
    obtain ⟨s2, hp2, hm, _, hsz⟩ := push_total ih t
    rw [hp] at hp2
    simp only [Option.some.injEq] at hp2
    subst hp2
    obtain ⟨h1, h2⟩ := ih
    simp only [CapacityInv, max_size, size] at h1 h2 hsz ⊢
    omega
  | @pop s0 s1 _ hp ih =>
    rw [pop_of_ne_nil (ne_nil_of_pop hp)] at hp
    simp only [Option.some.injEq] at hp
    subst hp
    obtain ⟨h1, h2⟩ := ih
    simp only [CapacityInv, max_size, size, length_pop_queue] at h1 h2 ⊢
    omega
  | @set_max_size s0 s1 maxSize _ hp ih =>
    obtain ⟨s2, hp2, hm, _, hsz⟩ := popLoop_total s0.size
      { s0 with m_maxSize := if maxSize = 0 then 1 else maxSize } (by simp only [size]; omega)
    unfold limited_priority_queue.set_max_size at hp
    rw [hp] at hp2
    simp only [Option.some.injEq] at hp2
    subst hp2
    simp only [CapacityInv, max_size, size] at hm hsz ⊢
    rw [hm, hsz]
    split <;> omega
  | clear _ ih =>
    obtain ⟨h1, _⟩ := ih
    simp only [CapacityInv, clear, max_size, size, List.length_nil] at h1 ⊢
    omega
  | swap_fst _ _ _ ih2 => exact ih2
  | swap_snd _ _ ih1 _ => exact ih1

/-- A run of pushes from a state with the capacity bound is defined, and fills
the queue up to its capacity. -/
theorem pushAll_total (ts : List T) : ∀ s : limited_priority_queue T, CapacityInv s →
    ∃ s1, pushAll s ts = some s1 ∧ s1.m_maxSize = s.m_maxSize ∧
      s1.m_compare = s.m_compare ∧ s1.size = min (s.size + ts.length) s.m_maxSize := by
  induction ts with
  | nil =>
    intro s hs
    refine ⟨s, rfl, rfl, rfl, ?_⟩
    obtain ⟨_, h2⟩ := hs
    simp only [max_size, size, List.length_nil] at h2 ⊢
    omega
  | cons t ts ih =>
    intro s hs
    obtain ⟨s1, hp, hm, hc, hsz⟩ := push_total hs t
    have hs1 : CapacityInv s1 := by
      obtain ⟨h1, h2⟩ := hs
      simp only [CapacityInv, max_size, size] at h1 h2 hsz ⊢
      omega
    obtain ⟨s2, hp2, hm2, hc2, hsz2⟩ := ih s1 hs1
    refine ⟨s2, ?_, hm2.trans hm, hc2.trans hc, ?_⟩
    · simp only [pushAll, List.foldlM_cons, hp]
      exact hp2
    · obtain ⟨h1, h2⟩ := hs
      simp only [max_size, size, List.length_cons] at h1 h2 hsz hsz2 hm ⊢
      omega

/-- C11: for every pair of queues, after `a.swap(b)` the state of `a` is the state `b` had
before and the state of `b` is the state `a` had before (stored sequence in
the same order, capacity and comparator), and swapping twice restores both. -/
theorem swap_exchanges_states (a b : limited_priority_queue T) :
    (swap a b).1 = b ∧ (swap a b).2 = a ∧
      (swap a b).1.elements = b.elements ∧ (swap a b).1.max_size = b.max_size ∧
      (swap a b).2.elements = a.elements ∧ (swap a b).2.max_size = a.max_size ∧
      swap (swap a b).1 (swap a b).2 = (a, b) :=
  ⟨rfl, rfl, rfl, rfl, rfl, rfl, rfl⟩

/-- C12: in every state `clear()` leaves an empty queue (`empty()` true, `size()` zero) with
`max_size()` unchanged, and the queue is reusable: in a state whose capacity
is at least one, as it is in every state of the class, pushing a sequence
after `clear()` gives what pushing it into a fresh queue of the same capacity
and comparator gives. -/
theorem clear_empties_and_is_reusable (s : limited_priority_queue T) :
    (clear s).empty = true ∧ (clear s).size = 0 ∧ (clear s).max_size = s.max_size ∧
      (1 ≤ s.max_size → ∀ ts : List T,
        pushAll (clear s) ts = pushAll (create s.max_size s.m_compare) ts) := by
  refine ⟨rfl, rfl, rfl, ?_⟩
  intro h ts
  have hc : clear s = create s.max_size s.m_compare := by
    simp only [max_size] at h
    simp only [clear, create, max_size]
    rw [if_neg (by omega)]
  rw [hc]

/-- The first push into a fresh queue of capacity 1 stores the value. -/
theorem push_create_one (compare : T → T → Bool) (t : T) :
    push (create 1 compare) t = some ⟨[t], 1, compare⟩ := by
  rfl

/-- On a queue of capacity 1 holding `x`, `push(v)` stores `v` when it compares
less than `x` and keeps `x` otherwise. -/
theorem push_singleton (compare : T → T → Bool) (x v : T) :
    push ⟨[x], 1, compare⟩ v = some ⟨[if compare v x then v else x], 1, compare⟩ := by
  cases h : compare v x with
  | false => simp [push, h]
  | true =>
    simp [push, h, pop_heap, push_heap, siftUp, siftDown, iter_swap]

/-- A run of pushes into a queue of capacity 1 holding `x` leaves a minimum of `x`
and the pushed values. -/
theorem pushAll_singleton {compare : T → T → Bool} (hlt : StrictWeakOrder compare)
    (ts : List T) : ∀ x : T, ∃ z, pushAll ⟨[x], 1, compare⟩ ts = some ⟨[z], 1, compare⟩ ∧
      z ∈ x :: ts ∧ ∀ y ∈ x :: ts, compare y z = false := by
  induction ts with
  | nil =>
    intro x
    refine ⟨x, rfl, by simp, ?_⟩
    intro y hy
    simp only [List.mem_singleton] at hy
    subst hy
    exact hlt.irrefl _
  | cons t ts ih =>
    intro x
    obtain ⟨z, hz, hmem, hmin⟩ := ih (if compare t x then t else x)
    refine ⟨z, ?_, ?_, ?_⟩
    · simp only [pushAll, List.foldlM_cons, push_singleton]
      exact hz
    · rcases List.mem_cons.mp hmem with h | h
      · rw [h]
        split <;> simp
      · simp [h]
    · have hxz := hmin _ (List.mem_cons_self _ _)
      intro y hy
      rcases List.mem_cons.mp hy with h | h
      · subst h
        cases hty : compare t y with
        | false =>
          rw [hty] at hxz
          simpa using hxz
        | true =>
          rw [hty] at hxz
          simp only [if_true] at hxz
          exact hlt.neg_trans (hlt.asymm hty) hxz
      · rcases List.mem_cons.mp h with h1 | h1
        · subst h1
          cases hty : compare y x with
          | false =>
            rw [hty] at hxz
            exact hlt.neg_trans hty (by simpa using hxz)
          | true =>
            rw [hty] at hxz
            simpa using hxz
        · exact hmin y (List.mem_cons_of_mem _ h1)

/-- C13: for a queue of capacity 1 whose comparator is a strict weak ordering and every
non-empty sequence of pushed values, exactly one element is retained and it
is a minimum of the pushed values; on such a queue holding `x`, a later value
`v` replaces `x` exactly when `v` compares less than `x`. -/
theorem capacity_one_keeps_minimum (compare : T → T → Bool) (hlt : StrictWeakOrder compare)
    (ts : List T) (hne : ts ≠ []) :
    ∃ x, pushAll (create 1 compare) ts = some ⟨[x], 1, compare⟩ ∧ x ∈ ts ∧
      (∀ y ∈ ts, compare y x = false) ∧
      ∀ v, push ⟨[x], 1, compare⟩ v = some ⟨[if compare v x then v else x], 1, compare⟩ := by
  cases ts with
  | nil => exact absurd rfl hne
  | cons t ts =>
    obtain ⟨z, hz, hmem, hmin⟩ := pushAll_singleton hlt ts t
    refine ⟨z, ?_, hmem, hmin, fun v => push_singleton compare z v⟩
    simp only [pushAll, List.foldlM_cons, push_create_one]
    exact hz

/-- Instance of C13: capacity 1, push 5 then 3 leaves 3. -/
theorem capacity_one_keeps_minimum_witness :
    pushAll (create 1 less) [5, 3] = some ⟨[3], 1, less⟩ ∧
      ∃ x, pushAll (create 1 less) [5, 3] = some ⟨[x], 1, less⟩ ∧ x ∈ [5, 3] ∧
        (∀ y ∈ [5, 3], less y x = false) ∧
        ∀ v, push ⟨[x], 1, less⟩ v = some ⟨[if less v x then v else x], 1, less⟩ :=
  ⟨rfl, capacity_one_keeps_minimum less strictWeakOrder_less [5, 3] (by simp)⟩

/-- C14 (the code departs from it): in the reachable full state with capacity 2 holding 5, 1
the worst retained element is 5 and the value 3 is strictly better than it,
yet `push(3)` leaves the state as it is: `push` compares 3 with
`m_queue.back()`, which is 1. -/
theorem push_full_better_than_worst_is_discarded :
    Reachable (⟨[5, 1], 2, less⟩ : limited_priority_queue Nat) ∧ IsWorst less [5, 1] 5 ∧
      less 3 5 = true ∧
      push (⟨[5, 1], 2, less⟩ : limited_priority_queue Nat) 3 = some ⟨[5, 1], 2, less⟩ := by
  refine ⟨?_, ⟨by simp, by simp [less]⟩, rfl, rfl⟩
  have h0 : Reachable (create 2 less) := Reachable.create 2 less
  have h1 : Reachable (⟨[5], 2, less⟩ : limited_priority_queue Nat) := Reachable.push 5 h0 rfl
  exact Reachable.push 1 h1 rfl

/-- C15: in every reachable state whose comparator is a strict weak ordering the stored
sequence, in `begin()..end()` order, is a binary max-heap: for every index
`i ≥ 1` the value at `(i - 1) / 2` does not compare less than the value at
`i`; in particular the first value is a worst retained element. -/
theorem reachable_is_max_heap (s : limited_priority_queue T) (hs : Reachable s)
    (hlt : StrictWeakOrder s.m_compare) :
    (∀ i, 1 ≤ i → ∀ a b, s.elements[(i - 1) / 2]? = some a → s.elements[i]? = some b →
      s.m_compare a b = false) ∧
    (∀ r, s.elements[0]? = some r → IsWorst s.m_compare s.elements r) := by
  have hheap : IsHeap s.m_compare s.m_queue := reachable_isHeap hs hlt
  refine ⟨?_, ?_⟩
  · intro i hi a b ha hb
    simp only [elements] at ha hb
    exact hheap i (by omega) (List.getElem?_eq_some.mp hb).1 a b ha hb
  · intro r hr
    exact isHeap_root_isWorst hlt hheap hr

/-- Instance of C15 on the queue of capacity 3 holding 5, 4, 3. -/
theorem reachable_is_max_heap_witness :
    (∀ i, 1 ≤ i → ∀ a b, full543.elements[(i - 1) / 2]? = some a →
      full543.elements[i]? = some b → full543.m_compare a b = false) ∧
    (∀ r, full543.elements[0]? = some r → IsWorst full543.m_compare full543.elements r) :=
  reachable_is_max_heap full543 reachable_full543 strictWeakOrder_less

/-- Overwriting the last value is dropping it and appending the new one. -/
theorem set_last_eq_dropLast_append : ∀ (q : List T) (v : T), q ≠ [] →
    q.set (q.length - 1) v = q.dropLast ++ [v]
  | [], _, h => absurd rfl h
  | [_], _, _ => rfl
  | x :: y :: ys, v, _ => by
    have ih := set_last_eq_dropLast_append (y :: ys) v (by simp)
    simp only [List.length_cons, Nat.add_sub_cancel] at ih ⊢
    simp only [List.set_cons_succ, List.dropLast_cons₂, List.cons_append, ih]

/-- The replacing branch of `push` stores the new value in place of the first one. -/
theorem push_replace_perm (lt : T → T → Bool) {q : List T} {r : T} (v : T)
    (hr : q[0]? = some r) :
    List.Perm (r :: push_heap lt ((pop_heap lt q).set (q.length - 1) v)) (v :: q) := by
  have h0 : 0 < q.length := (List.getElem?_eq_some.mp hr).1
  have hne : pop_heap lt q ≠ [] := by
    intro hnil
    have hlen := @length_pop_heap T lt q
    rw [hnil] at hlen
    simp at hlen
    omega
  have hset := set_last_eq_dropLast_append (pop_heap lt q) v hne
  rw [length_pop_heap] at hset
  rw [hset]
  have h1 : List.Perm (push_heap lt ((pop_heap lt q).dropLast ++ [v]))
      (v :: (pop_heap lt q).dropLast) :=
    (push_heap_perm _).trans (List.perm_append_singleton v _)
  have h2 : List.Perm q (r :: (pop_heap lt q).dropLast) := pop_heap_dropLast_perm hr
  exact ((h1.cons r).trans (List.Perm.swap _ _ _)).trans (h2.symm.cons v)

/-- C16: on a full queue in a reachable state whose comparator is a strict weak ordering,
`push(v)` is defined, and whenever it changes the stored elements it evicts a
worst retained element `e` and `v` is strictly better than `e`: the stored
values after, together with `e`, are the stored values before together with
`v`. -/
theorem push_full_evicts_worst_for_better (s : limited_priority_queue T) (hs : Reachable s)
    (hlt : StrictWeakOrder s.m_compare) (hfull : s.size = s.max_size) (v : T) :
    ∃ s1, push s v = some s1 ∧
      (s1.elements ≠ s.elements →
        ∃ e, IsWorst s.m_compare s.elements e ∧ s.m_compare v e = true ∧
          List.Perm (e :: s1.elements) (v :: s.elements)) := by
  obtain ⟨hcap, _⟩ := reachable_capacityInv hs
  simp only [size, max_size] at hfull hcap
  have hpos : 0 < s.m_queue.length := by omega
  have hb : s.m_queue.getLast? = some (s.m_queue[s.m_queue.length - 1]) := by
    rw [List.getLast?_eq_getElem?]
    exact List.getElem?_eq_getElem (by omega)
  have hr : s.m_queue[0]? = some (s.m_queue[0]) := List.getElem?_eq_getElem hpos
  have hworst := isHeap_root_isWorst hlt (reachable_isHeap hs hlt) hr
  unfold push
  rw [if_neg (by omega), hb]
  simp only
  by_cases hvb : s.m_compare v (s.m_queue[s.m_queue.length - 1]) = true
  · rw [if_pos hvb]
    refine ⟨_, rfl, fun _ => ⟨s.m_queue[0], hworst, ?_, push_replace_perm _ v hr⟩⟩
    cases hve : s.m_compare v (s.m_queue[0]) with
    | true => rfl
    | false =>
      have hvb1 : s.m_compare v (s.m_queue[s.m_queue.length - 1]) = false :=
        hlt.neg_trans hve (hworst.2 _ (List.getElem_mem _))
      rw [hvb] at hvb1
      exact absurd hvb1 (by simp)
  · rw [if_neg hvb]
    exact ⟨s, rfl, fun hne => absurd rfl hne⟩

/-- Instance of C16: on the queue of capacity 3 holding 5, 4, 3, `push(2)` evicts 5. -/
theorem push_full_evicts_worst_for_better_witness :
    push full543 2 = some ⟨[4, 3, 2], 3, less⟩ ∧
      ∃ s1, push full543 2 = some s1 ∧
        (s1.elements ≠ full543.elements →
          ∃ e, IsWorst full543.m_compare full543.elements e ∧ full543.m_compare 2 e = true ∧
            List.Perm (e :: s1.elements) (2 :: full543.elements)) :=
  ⟨rfl, push_full_evicts_worst_for_better full543 reachable_full543 strictWeakOrder_less rfl 2⟩

/-- C17: for every capacity `K ≥ 1` and every sequence of pushes into a fresh queue, every
push is defined and after all of them `size()` is `min K n`, `n` being the
number of pushes, with `max_size()` still `K`. -/
theorem size_after_pushes (K : Nat) (hK : 1 ≤ K) (compare : T → T → Bool) (ts : List T) :
    ∃ s, pushAll (create K compare) ts = some s ∧ s.size = min K ts.length ∧
      s.max_size = K := by
  have hcap : CapacityInv (create K compare) := by
    simp only [CapacityInv, create, max_size, size, List.length_nil]
    split <;> omega
  obtain ⟨s, hp, hm, _, hsz⟩ := pushAll_total ts (create K compare) hcap
  have hm1 : (create K compare).m_maxSize = K := by
    simp only [create]
    rw [if_neg (by omega)]
  rw [hm1] at hm hsz
  refine ⟨s, hp, ?_, hm⟩
  simp only [size, create, List.length_nil] at hsz ⊢
  omega

/-- Instance of C17: six pushes into a fresh queue of capacity 3 leave three values. -/
theorem size_after_pushes_witness :
    ∃ s, pushAll (create 3 less) [5, 1, 9, 2, 7, 0] = some s ∧
      s.size = min 3 [5, 1, 9, 2, 7, 0].length ∧ s.max_size = 3 :=
  size_after_pushes 3 (by decide) less [5, 1, 9, 2, 7, 0]

/-- The values stored after `push(t)` are among the values stored before and `t`. -/
theorem push_subperm {s s1 : limited_priority_queue T} {t : T} (hp : push s t = some s1) :
    List.Subperm s1.m_queue (t :: s.m_queue) := by
  unfold push at hp
  split at hp
  · simp only [Option.some.injEq] at hp
    subst hp
    exact ((push_heap_perm _).trans (List.perm_append_singleton t _)).subperm
  · split at hp
    · exact absurd hp (by simp)
    · next b hb =>
      have hne : s.m_queue ≠ [] := by
        intro hnil
        simp [hnil] at hb
      obtain ⟨r, hr⟩ := head_of_ne_nil hne
      split at hp
      · simp only [Option.some.injEq] at hp
        subst hp
        exact List.Subperm.cons_self.trans (push_replace_perm _ t hr).subperm
      · simp only [Option.some.injEq] at hp
        subst hp
        exact List.Subperm.cons_self

/-- The values stored after `pop()` are among the values stored before. -/
theorem pop_subperm {s s1 : limited_priority_queue T} (hp : pop s = some s1) :
    List.Subperm s1.m_queue s.m_queue := by
  rw [pop_of_ne_nil (ne_nil_of_pop hp)] at hp
  simp only [Option.some.injEq] at hp
  subst hp
  exact (List.dropLast_sublist _).subperm.trans (pop_heap_perm _).subperm

/-- The values stored after the loop of `set_max_size` are among those stored before. -/
theorem popLoop_subperm (fuel : Nat) : ∀ (s s1 : limited_priority_queue T),
    popLoop fuel s = some s1 → List.Subperm s1.m_queue s.m_queue := by
  induction fuel with
  | zero =>
    intro s s1 hp
    simp only [popLoop] at hp
    split at hp
    · exact absurd hp (by simp)
    · simp only [Option.some.injEq] at hp
      subst hp
      exact List.Subperm.refl _
  | succ f ih =>
    intro s s1 hp
    simp only [popLoop] at hp
    split at hp
    · cases hpop : pop s with
      | none =>
        rw [hpop] at hp
        exact absurd hp (by simp)
      | some s2 =>
        rw [hpop] at hp
        simp only [Option.some_bind] at hp
        exact (ih s2 s1 hp).trans (pop_subperm hpop)
    · simp only [Option.some.injEq] at hp
      subst hp
      exact List.Subperm.refl _

/-- C18: in every state reachable from a fresh queue by `push`, `pop` (where defined),
`set_max_size` and `clear`, the stored values form a sub-multiset of the
values pushed so far: nothing is invented and nothing is duplicated. -/
theorem stored_values_were_pushed (pushed : List T) (s : limited_priority_queue T)
    (h : ReachableAfter pushed s) : List.Subperm s.elements pushed := by
  simp only [elements]
  induction h with
  | create maxSize compare => exact List.Subperm.refl _
  | push t _ hp ih => exact (push_subperm hp).trans ((List.subperm_cons t).mpr ih)
  | pop _ hp ih => exact (pop_subperm hp).trans ih
  | set_max_size maxSize _ hp ih => exact (popLoop_subperm _ _ _ hp).trans ih
  | clear _ _ => exact List.nil_subperm

/-- Instance of C18: capacity 2, pushes 1, 5, 3 and then `pop()` leave the single value 1. -/
theorem stored_values_were_pushed_witness :
    ReachableAfter [3, 5, 1] (⟨[1], 2, less⟩ : limited_priority_queue Nat) ∧
      List.Subperm (⟨[1], 2, less⟩ : limited_priority_queue Nat).elements [3, 5, 1] :=
  have h0 : ReachableAfter [] (create 2 less) := ReachableAfter.create 2 less
  have h1 : ReachableAfter [1] (⟨[1], 2, less⟩ : limited_priority_queue Nat) :=
    ReachableAfter.push 1 h0 rfl
  have h2 : ReachableAfter [5, 1] (⟨[5, 1], 2, less⟩ : limited_priority_queue Nat) :=
    ReachableAfter.push 5 h1 rfl
  have h3 : ReachableAfter [3, 5, 1] (⟨[5, 1], 2, less⟩ : limited_priority_queue Nat) :=
    ReachableAfter.push 3 h2 rfl
  have h4 : ReachableAfter [3, 5, 1] (⟨[1], 2, less⟩ : limited_priority_queue Nat) :=
    ReachableAfter.pop h3 rfl
  ⟨h4, stored_values_were_pushed [3, 5, 1] ⟨[1], 2, less⟩ h4⟩

/-- The loop of `set_max_size` is a run of `size() - m_maxSize` calls of `pop()`. -/
theorem popLoop_eq_popN (fuel : Nat) : ∀ s : limited_priority_queue T,
    s.size ≤ fuel + s.m_maxSize → popLoop fuel s = popN (s.size - s.m_maxSize) s := by
  induction fuel with
  | zero =>
    intro s hs
    have hk : s.size - s.m_maxSize = 0 := by omega
    rw [hk]
    simp only [popLoop, popN]
    rw [if_neg (by omega)]
  | succ f ih =>
    intro s hs
    by_cases hgt : s.size > s.m_maxSize
    · have hne : s.m_queue ≠ [] := by
        intro hnil
        simp [size, hnil] at hgt
      have hk : s.size - s.m_maxSize = (s.size - 1 - s.m_maxSize) + 1 := by omega
      rw [hk]
      simp only [popLoop, popN]
      rw [if_pos hgt, pop_of_ne_nil hne]
      simp only [Option.some_bind]
      have h1 := ih { s with m_queue := (pop_heap s.m_compare s.m_queue).dropLast } (by
        simp only [size, length_pop_queue]
        simp only [size] at hs
        omega)
      simp only [size, length_pop_queue] at h1 ⊢
      exact h1
    · have hk : s.size - s.m_maxSize = 0 := by omega
      rw [hk]
      simp only [popLoop, popN]
      rw [if_neg hgt]

/-- C19: in every reachable state the capacity is at least one, so the branch of `push`
that reads `back()` and calls `pop_heap` (`size() ≥ max_size()`) runs on a
non-empty sequence and `push` is defined; `set_max_size(m)` is defined and
its loop is a run of exactly `size() - max m 1` calls of `pop()`, each of them
defined, which leaves `min size() (max m 1)` values. -/
theorem internal_accesses_are_defined (s : limited_priority_queue T) (hs : Reachable s) :
    1 ≤ s.max_size ∧ (s.max_size ≤ s.size → s.empty = false) ∧
      (∀ v, ∃ s1, push s v = some s1) ∧
      (∀ m, ∃ s1, set_max_size s m = some s1 ∧
        popN (s.size - max m 1) { s with m_maxSize := max m 1 } = some s1 ∧
        s1.size = min s.size (max m 1)) := by
  have hcap := reachable_capacityInv hs
  refine ⟨hcap.1, ?_, ?_, ?_⟩
  · intro hfull
    obtain ⟨h1, _⟩ := hcap
    simp only [max_size, size] at h1 hfull
    cases hq : s.m_queue with
    | nil =>
      rw [hq] at hfull
      simp at hfull
      omega
    | cons x xs => simp [empty, hq]
  · intro v
    obtain ⟨s1, hp, _⟩ := push_total hcap v
    exact ⟨s1, hp⟩
  · intro m
    have hmax : (if m = 0 then 1 else m) = max m 1 := by
      split <;> omega
    obtain ⟨s1, hp, _, _, hsz⟩ := popLoop_total s.size
      { s with m_maxSize := max m 1 } (by simp only [size]; omega)
    have heq := popLoop_eq_popN s.size
      { s with m_maxSize := max m 1 } (by simp only [size]; omega)
    refine ⟨s1, ?_, ?_, hsz⟩
    · unfold set_max_size
      rw [hmax]
      exact hp
    · exact heq.symm.trans hp

/-- Instance of C19 on the queue of capacity 3 holding 5, 4, 3: `set_max_size(1)` is two
calls of `pop()`. -/
theorem internal_accesses_are_defined_witness :
    popN 2 { full543 with m_maxSize := 1 } = some ⟨[3], 1, less⟩ ∧
      1 ≤ full543.max_size ∧ (full543.max_size ≤ full543.size → full543.empty = false) ∧
      (∀ v, ∃ s1, push full543 v = some s1) ∧
      (∀ m, ∃ s1, set_max_size full543 m = some s1 ∧
        popN (full543.size - max m 1) { full543 with m_maxSize := max m 1 } = some s1 ∧
        s1.size = min full543.size (max m 1)) :=
  ⟨rfl, internal_accesses_are_defined full543 reachable_full543⟩

end limited_priority_queue

end my
